import Mathlib

/-!
Verification of ranger's ANSI handling (`ranger/gui/ansi.py`, `ranger/gui/color.py`).

Strings are modelled as `List Char`.  The regular expression
`ansi_re = (\x1b\[\d*(?:;\d+)*?[a-zA-Z])` is deterministic on every input
(digit, `;` and letter classes are pairwise disjoint), so it is embedded as a
function `matchAnsi` that attempts the pattern at the head of a string.
`re.split` with a single capturing group and `re.sub` are embedded as fueled
scans over the string (fuel = string length, one unit per scan position).
-/

namespace Ranger

/-- `\d` of the pattern (ASCII digits, as produced by SGR parameters). -/
def isDigitCh (c : Char) : Bool := 48 ≤ c.toNat && c.toNat ≤ 57

/-- `[a-zA-Z]` of the pattern: the terminating letter class of `ansi_re`. -/
def isLetterCh (c : Char) : Bool :=
  (97 ≤ c.toNat && c.toNat ≤ 122) || (65 ≤ c.toNat && c.toNat ≤ 90)

/-- Characters allowed inside the parameter area of `ansi_re`: digits and `;`. -/
def paramChar (c : Char) : Bool := isDigitCh c || c = ';'

/-- Shape of the parameter area `\d*(?:;\d+)*`: every `;` is immediately
followed by a digit (no `;;`, no trailing `;`). -/
def paramShape : List Char → Bool
  | [] => true
  | c :: rest =>
    if c = ';' then
      match rest with
      | [] => false
      | d :: _ => isDigitCh d && paramShape rest
    else paramShape rest

/-- Attempt `ansi_re` at the head of the string: introducer `\x1b[`, a maximal
run of parameter characters that must have shape `\d*(?:;\d+)*`, then one
terminating letter.  Returns the matched escape sequence and the rest. -/
def matchAnsi : List Char → Option (List Char × List Char)
  | e :: b :: rest =>
    if e = '\x1b' ∧ b = '[' then
      match rest.dropWhile paramChar with
      | c :: cs =>
        if isLetterCh c ∧ paramShape (rest.takeWhile paramChar) then
          some (e :: b :: (rest.takeWhile paramChar ++ [c]), cs)
        else none
      | [] => none
    else none
  | _ => none

/-- A complete escape sequence: `matchAnsi` consumes it entirely. -/
def isEscSeq (m : List Char) : Prop := matchAnsi m = some (m, [])

instance (m : List Char) : Decidable (isEscSeq m) := by
  unfold isEscSeq; infer_instance

/-- Literal text that contains no complete escape sequence as a substring. -/
def textFree (t : List Char) : Prop := ∀ w, isEscSeq w → ¬ w <:+: t

section CharClasses

theorem letter_not_digit {c : Char} (h : isLetterCh c = true) :
    isDigitCh c = false := by
  have : ¬ (isDigitCh c = true) := by
    intro hd
    simp only [isLetterCh, isDigitCh, Bool.or_eq_true, Bool.and_eq_true,
      decide_eq_true_eq] at h hd
    omega
  simpa using this

theorem letter_ne_semi {c : Char} (h : isLetterCh c = true) : c ≠ ';' := by
  intro hc; subst hc; simp [isLetterCh] at h

theorem letter_not_param {c : Char} (h : isLetterCh c = true) :
    paramChar c = false := by
  simp only [paramChar, Bool.or_eq_false_iff, decide_eq_false_iff_not]
  exact ⟨letter_not_digit h, letter_ne_semi h⟩

theorem letter_ne_esc {c : Char} (h : isLetterCh c = true) : c ≠ '\x1b' := by
  intro hc; subst hc; simp [isLetterCh] at h

theorem digit_ne_esc {c : Char} (h : isDigitCh c = true) : c ≠ '\x1b' := by
  intro hc; subst hc; simp [isDigitCh] at h

theorem param_ne_esc {c : Char} (h : paramChar c = true) : c ≠ '\x1b' := by
  simp only [paramChar, Bool.or_eq_true, decide_eq_true_eq] at h
  rcases h with h | h
  · exact digit_ne_esc h
  · subst h; decide

end CharClasses

section MatchAnsi

/-- Computation of `takeWhile`/`dropWhile` on a run of parameter characters
followed by a non-parameter character. -/
theorem run_take_drop {p : Char → Bool} :
    ∀ (run : List Char), run.all p = true → ∀ c X, p c = false →
      ((run ++ c :: X).takeWhile p = run ∧ (run ++ c :: X).dropWhile p = c :: X)
  | [], _, c, X, hc => by
    simp [List.takeWhile_cons, List.dropWhile_cons, hc]
  | r :: run, hall, c, X, hc => by
    simp only [List.all_cons, Bool.and_eq_true] at hall
    have ih := run_take_drop run hall.2 c X hc
    simp [List.takeWhile_cons, List.dropWhile_cons, hall.1, ih.1, ih.2]

theorem matchAnsi_build (run : List Char) (c : Char) (X : List Char)
    (hall : run.all paramChar = true) (hshape : paramShape run = true)
    (hc : isLetterCh c = true) :
    matchAnsi ('\x1b' :: '[' :: (run ++ c :: X)) =
      some ('\x1b' :: '[' :: (run ++ [c]), X) := by
  have htd := run_take_drop run hall c X (letter_not_param hc)
  simp [matchAnsi, htd.1, htd.2, hc, hshape]

theorem matchAnsi_some {l m r : List Char} (h : matchAnsi l = some (m, r)) :
    ∃ run c, m = '\x1b' :: '[' :: (run ++ [c]) ∧ l = m ++ r ∧
      run.all paramChar = true ∧ paramShape run = true ∧ isLetterCh c = true := by
  match l with
  | [] => simp [matchAnsi] at h
  | [e] => simp [matchAnsi] at h
  | e :: b :: rest =>
    rw [matchAnsi] at h
    split at h
    · rename_i heb
      obtain ⟨he, hb⟩ := heb
      subst he; subst hb
      split at h
      · rename_i c cs hdw
        split at h
        · rename_i hcond
          have hpair := Option.some.inj h
          have hm : '\x1b' :: '[' :: (rest.takeWhile paramChar ++ [c]) = m :=
            congrArg Prod.fst hpair
          have hr : cs = r := congrArg Prod.snd hpair
          have hrest : rest = rest.takeWhile paramChar ++ (c :: cs) := by
            conv_lhs => rw [← List.takeWhile_append_dropWhile (p := paramChar) (l := rest)]
            rw [hdw]
          refine ⟨rest.takeWhile paramChar, c, hm.symm, ?_, ?_, hcond.2, hcond.1⟩
          · rw [← hm, ← hr]
            conv_lhs => rw [hrest]
            simp
          · exact List.all_eq_true.mpr fun x hx => List.mem_takeWhile_imp hx
        · exact absurd h (by simp)
      · rename_i hdw
        exact absurd h (by simp)
    · exact absurd h (by simp)

end MatchAnsi

section EscSeq

theorem matchAnsi_isEscSeq {l m r : List Char} (h : matchAnsi l = some (m, r)) :
    isEscSeq m := by
  obtain ⟨run, c, hm, _, hall, hshape, hc⟩ := matchAnsi_some h
  subst hm
  unfold isEscSeq
  have := matchAnsi_build run c [] hall hshape hc
  simpa using this

theorem matchAnsi_append {l m r : List Char} (h : matchAnsi l = some (m, r)) :
    l = m ++ r :=
  (matchAnsi_some h).choose_spec.choose_spec.2.1

theorem isEscSeq_inv {m : List Char} (h : isEscSeq m) :
    ∃ run c, m = '\x1b' :: '[' :: (run ++ [c]) ∧ run.all paramChar = true ∧
      paramShape run = true ∧ isLetterCh c = true := by
  obtain ⟨run, c, hm, _, hall, hshape, hc⟩ := matchAnsi_some h
  exact ⟨run, c, hm, hall, hshape, hc⟩

/-- An escape sequence followed by anything is matched exactly (determinism of
the pattern: the first terminating letter ends the match). -/
theorem isEscSeq_matchAnsi_append {m : List Char} (h : isEscSeq m) (X : List Char) :
    matchAnsi (m ++ X) = some (m, X) := by
  obtain ⟨run, c, hm, hall, hshape, hc⟩ := isEscSeq_inv h
  subst hm
  have := matchAnsi_build run c X hall hshape hc
  simpa using this

theorem isEscSeq_ne_nil {m : List Char} (h : isEscSeq m) : m ≠ [] := by
  obtain ⟨run, c, hm, _, _, _⟩ := isEscSeq_inv h
  subst hm; simp

theorem isEscSeq_head {m : List Char} (h : isEscSeq m) :
    ∃ t, m = '\x1b' :: t := by
  obtain ⟨run, c, hm, _, _, _⟩ := isEscSeq_inv h
  exact ⟨_, hm⟩

/-- Inside an escape sequence the introducer occurs only at position 0. -/
theorem isEscSeq_tail_ne_esc {m : List Char} (h : isEscSeq m) :
    ∀ x ∈ m.tail, x ≠ '\x1b' := by
  obtain ⟨run, c, hm, hall, _, hc⟩ := isEscSeq_inv h
  subst hm
  intro x hx
  simp only [List.tail_cons, List.mem_cons, List.mem_append, List.mem_singleton,
    List.not_mem_nil, or_false] at hx
  rcases hx with hx | hx | hx
  · subst hx; decide
  · exact param_ne_esc (List.all_eq_true.mp hall x hx)
  · subst hx; exact letter_ne_esc hc

theorem isEscSeq_three_le {m : List Char} (h : isEscSeq m) : 3 ≤ m.length := by
  obtain ⟨run, c, hm, _, _, _⟩ := isEscSeq_inv h
  subst hm
  simp only [List.length_cons, List.length_append, List.length_singleton]
  omega

theorem textFree_nil : textFree [] := by
  intro w hw hsub
  have := List.IsInfix.sublist hsub
  have hn : w = [] := List.sublist_nil.mp this
  exact isEscSeq_ne_nil hw hn

theorem textFree_of_sub {u t : List Char} (hsub : u <:+: t) (h : textFree t) :
    textFree u := fun w hw hwu => h w hw (hwu.trans hsub)

end EscSeq

/-! ### Tokenizer: `split_ansi_from_text` (`re.split` with one capturing group)
and the `re.sub` scan used by `char_len`.  Both are fueled scans, one fuel unit
per scan position; fuel `s.length` always suffices. -/

/-- One `re.split` scan step: at each position either the pattern matches (text
so far is flushed, the captured escape is a chunk) or the scan advances one
character.  `re.split` output alternates text chunk, escape chunk, text chunk… -/
def splitAnsiF : Nat → List Char → List (List Char)
  | _, [] => [[]]
  | 0, s => [s]
  | fuel + 1, c :: cs =>
    match matchAnsi (c :: cs) with
    | some (m, r) => [] :: m :: splitAnsiF fuel r
    | none =>
      match splitAnsiF fuel cs with
      | t :: rest => (c :: t) :: rest
      | [] => [[c]]

/-- `split_ansi_from_text(ansi_text) = ansi_re.split(ansi_text)`. -/
def split_ansi_from_text (s : List Char) : List (List Char) :=
  splitAnsiF s.length s

/-- `ansi_re.sub('', s)`: drop every leftmost non-overlapping match. -/
def ansiSubF : Nat → List Char → List Char
  | _, [] => []
  | 0, s => s
  | fuel + 1, c :: cs =>
    match matchAnsi (c :: cs) with
    | some (_, r) => ansiSubF fuel r
    | none => c :: ansiSubF fuel cs

def ansiSub (s : List Char) : List Char := ansiSubF s.length s

section Scan

theorem matchAnsi_rest_lt {l m r : List Char} (h : matchAnsi l = some (m, r)) :
    r.length < l.length := by
  have hl := matchAnsi_append h
  have hm := isEscSeq_three_le (matchAnsi_isEscSeq h)
  subst hl
  simp only [List.length_append]
  omega

theorem splitAnsiF_ne_nil : ∀ (f : Nat) (s : List Char), splitAnsiF f s ≠ []
  | _, [] => by simp [splitAnsiF]
  | 0, _ :: _ => by simp [splitAnsiF]
  | f + 1, c :: cs => by
    rw [splitAnsiF]
    cases matchAnsi (c :: cs) with
    | some p => simp
    | none =>
      cases splitAnsiF f cs with
      | nil => simp
      | cons t rest => simp

theorem splitAnsiF_fuel : ∀ (f g : Nat) (s : List Char),
    s.length ≤ f → s.length ≤ g → splitAnsiF f s = splitAnsiF g s
  | _, _, [], _, _ => by simp [splitAnsiF]
  | 0, _, _ :: _, hf, _ => by simp at hf
  | _ + 1, 0, _ :: _, _, hg => by simp at hg
  | f + 1, g + 1, c :: cs, hf, hg => by
    rw [splitAnsiF, splitAnsiF]
    simp only [List.length_cons, Nat.add_le_add_iff_right] at hf hg
    cases hmt : matchAnsi (c :: cs) with
    | some p =>
      obtain ⟨m, r⟩ := p
      have hr := matchAnsi_rest_lt hmt
      simp only [List.length_cons] at hr
      show [] :: m :: splitAnsiF f r = [] :: m :: splitAnsiF g r
      rw [splitAnsiF_fuel f g r (by omega) (by omega)]
    | none =>
      show (match splitAnsiF f cs with
            | t :: rest => (c :: t) :: rest
            | [] => [[c]]) =
          (match splitAnsiF g cs with
            | t :: rest => (c :: t) :: rest
            | [] => [[c]])
      rw [splitAnsiF_fuel f g cs hf hg]

theorem ansiSubF_fuel : ∀ (f g : Nat) (s : List Char),
    s.length ≤ f → s.length ≤ g → ansiSubF f s = ansiSubF g s
  | _, _, [], _, _ => by simp [ansiSubF]
  | 0, _, _ :: _, hf, _ => by simp at hf
  | _ + 1, 0, _ :: _, _, hg => by simp at hg
  | f + 1, g + 1, c :: cs, hf, hg => by
    rw [ansiSubF, ansiSubF]
    simp only [List.length_cons, Nat.add_le_add_iff_right] at hf hg
    cases hmt : matchAnsi (c :: cs) with
    | some p =>
      obtain ⟨m, r⟩ := p
      have hr := matchAnsi_rest_lt hmt
      simp only [List.length_cons] at hr
      show ansiSubF f r = ansiSubF g r
      rw [ansiSubF_fuel f g r (by omega) (by omega)]
    | none =>
      show c :: ansiSubF f cs = c :: ansiSubF g cs
      rw [ansiSubF_fuel f g cs hf hg]

theorem splitAnsiF_join : ∀ (f : Nat) (s : List Char), s.length ≤ f →
    (splitAnsiF f s).flatten = s
  | _, [], _ => by simp [splitAnsiF]
  | 0, _ :: _, hf => by simp at hf
  | f + 1, c :: cs, hf => by
    rw [splitAnsiF]
    simp only [List.length_cons, Nat.add_le_add_iff_right] at hf
    cases hmt : matchAnsi (c :: cs) with
    | some p =>
      obtain ⟨m, r⟩ := p
      have hr := matchAnsi_rest_lt hmt
      simp only [List.length_cons] at hr
      have ih := splitAnsiF_join f r (by omega)
      show ([] :: m :: splitAnsiF f r).flatten = c :: cs
      simp only [List.flatten_cons, List.nil_append, ih]
      exact (matchAnsi_append hmt).symm
    | none =>
      have ih := splitAnsiF_join f cs hf
      cases hsp : splitAnsiF f cs with
      | nil => exact absurd hsp (splitAnsiF_ne_nil f cs)
      | cons t rest =>
        rw [hsp] at ih
        show ((c :: t) :: rest).flatten = c :: cs
        simp only [List.flatten_cons] at ih ⊢
        rw [List.cons_append, ih]

end Scan

/-! ### Structure of the token list -/

/-- Alternation invariant of `re.split` output, parametrised by the parity of
the next chunk (`true` = next chunk is a captured escape sequence). -/
def ChunksOK : List (List Char) → Bool → Prop
  | [], _ => True
  | c :: cs, false => textFree c ∧ ChunksOK cs true
  | c :: cs, true => isEscSeq c ∧ ChunksOK cs false

/-- Keep every second chunk, starting with the head when `keep` is true.
`parityChunks true` extracts the text chunks of a split. -/
def parityChunks : Bool → List (List Char) → List (List Char)
  | _, [] => []
  | keep, c :: cs => if keep then c :: parityChunks false cs else parityChunks true cs

section SplitStructure

theorem textFree_cons {c : Char} {cs t X : List Char}
    (hm : matchAnsi (c :: cs) = none) (ht : textFree t) (hX : t ++ X = cs) :
    textFree (c :: t) := by
  intro w hw hsub
  obtain ⟨u, v, huv⟩ := hsub
  cases u with
  | nil =>
    have hccs : c :: cs = w ++ (v ++ X) := by
      rw [← hX, ← List.cons_append]
      simp only [List.nil_append] at huv
      rw [← huv]
      simp [List.append_assoc]
    rw [hccs, isEscSeq_matchAnsi_append hw (v ++ X)] at hm
    exact absurd hm (by simp)
  | cons a u' =>
    have ht' : u' ++ w ++ v = t := by
      have := List.tail_eq_of_cons_eq huv
      simpa using this
    exact ht w hw ⟨u', v, ht'⟩

theorem splitAnsiF_ok : ∀ (f : Nat) (s : List Char), s.length ≤ f →
    ChunksOK (splitAnsiF f s) false
  | _, [], _ => by simp [splitAnsiF, ChunksOK, textFree_nil]
  | 0, _ :: _, hf => by simp at hf
  | f + 1, c :: cs, hf => by
    rw [splitAnsiF]
    simp only [List.length_cons, Nat.add_le_add_iff_right] at hf
    cases hmt : matchAnsi (c :: cs) with
    | some p =>
      obtain ⟨m, r⟩ := p
      have hr := matchAnsi_rest_lt hmt
      simp only [List.length_cons] at hr
      have ih := splitAnsiF_ok f r (by omega)
      show ChunksOK ([] :: m :: splitAnsiF f r) false
      exact ⟨textFree_nil, matchAnsi_isEscSeq hmt, ih⟩
    | none =>
      have ih := splitAnsiF_ok f cs hf
      have ihj := splitAnsiF_join f cs hf
      cases hsp : splitAnsiF f cs with
      | nil => exact absurd hsp (splitAnsiF_ne_nil f cs)
      | cons t rest =>
        rw [hsp] at ih ihj
        show ChunksOK ((c :: t) :: rest) false
        simp only [List.flatten_cons] at ihj
        exact ⟨textFree_cons hmt ih.1 ihj, ih.2⟩

theorem splitAnsiF_length_odd : ∀ (f : Nat) (s : List Char),
    (splitAnsiF f s).length % 2 = 1
  | _, [] => by simp [splitAnsiF]
  | 0, _ :: _ => by simp [splitAnsiF]
  | f + 1, c :: cs => by
    rw [splitAnsiF]
    cases hmt : matchAnsi (c :: cs) with
    | some p =>
      obtain ⟨m, r⟩ := p
      have := splitAnsiF_length_odd f r
      show ([] :: m :: splitAnsiF f r).length % 2 = 1
      simp only [List.length_cons]
      omega
    | none =>
      have := splitAnsiF_length_odd f cs
      cases hsp : splitAnsiF f cs with
      | nil => exact absurd hsp (splitAnsiF_ne_nil f cs)
      | cons t rest =>
        rw [hsp] at this
        show ((c :: t) :: rest).length % 2 = 1
        simpa using this

/-- The `re.sub` scan removes exactly the captured escape chunks of the
`re.split` scan: what is left is the concatenation of the text chunks. -/
theorem ansiSubF_textChunks : ∀ (f : Nat) (s : List Char), s.length ≤ f →
    ansiSubF f s = (parityChunks true (splitAnsiF f s)).flatten
  | _, [], _ => by simp [ansiSubF, splitAnsiF, parityChunks]
  | 0, _ :: _, hf => by simp at hf
  | f + 1, c :: cs, hf => by
    rw [ansiSubF, splitAnsiF]
    simp only [List.length_cons, Nat.add_le_add_iff_right] at hf
    cases hmt : matchAnsi (c :: cs) with
    | some p =>
      obtain ⟨m, r⟩ := p
      have hr := matchAnsi_rest_lt hmt
      simp only [List.length_cons] at hr
      have ih := ansiSubF_textChunks f r (by omega)
      show ansiSubF f r = (parityChunks true ([] :: m :: splitAnsiF f r)).flatten
      simp [parityChunks, ih]
    | none =>
      have ih := ansiSubF_textChunks f cs hf
      cases hsp : splitAnsiF f cs with
      | nil => exact absurd hsp (splitAnsiF_ne_nil f cs)
      | cons t rest =>
        rw [hsp] at ih
        show c :: ansiSubF f cs = (parityChunks true ((c :: t) :: rest)).flatten
        simp only [parityChunks, if_pos, List.flatten_cons, ih, List.cons_append]

end SplitStructure

/-! ### Width model (WideString) -/

/-- Modelled from the spec: `ranger.ext.widestring` (`WideString`,
`utf_char_width`) is not under `src/`.  Per the spec (§4.3, §9) the width
lookup is a pure `codepoint → 1|2` function following East Asian width rules;
here CJK unified ideographs and fullwidth forms are the wide glyphs. -/
def wideChar (c : Char) : Bool :=
  (0x4E00 ≤ c.toNat && c.toNat ≤ 0x9FFF) || (0xFF01 ≤ c.toNat && c.toNat ≤ 0xFF60)

/-- Modelled from the spec: `WideString`'s cell list — a glyph occupies one
cell per unit of display width (a wide glyph: its char cell plus an empty
continuation cell), so indexing and slicing are cell-based. -/
def cellsOf (c : Char) : List (List Char) := if wideChar c then [[c], []] else [[c]]

/-- Modelled from the spec: the cell list of a string. -/
def cellList (s : List Char) : List (List Char) := (s.map cellsOf).flatten

/-- Modelled from the spec: `len(WideString(s))` — display cell count. -/
def wlen (s : List Char) : Nat := (cellList s).length

/-- Modelled from the spec: `str(WideString(s)[a:b])` — cell-based slice,
rejoined to a plain string. -/
def cellSlice (s : List Char) (a b : Nat) : List Char :=
  (((cellList s).take b).drop a).flatten

/-- `char_len(ansi_text) = len(WideString(ansi_re.sub('', ansi_text)))`. -/
def char_len (s : List Char) : Nat := wlen (ansiSub s)

/-! ### `char_slice` -/

/-- The loop of `char_slice`, walking the chunks of `split_ansi_from_text`.
The `esc` flag holds when the current chunk has odd index (`i % 2 == 1`), `lc`
is `last_color` and `pos` the visible position before the current chunk
(Python's `old_pos`).  The subtraction arguments of the cell slices equal the
Python values because `pos ≤ start + length` holds in every state reached from
`char_slice` (the loop breaks as soon as `pos - start >= length`) and the
second branch guards `pos < start`. -/
def sliceChunks (start length : Nat) :
    List (List Char) → Bool → List Char → Nat → List (List Char)
  | [], _, _, _ => []
  | chunk :: rest, true, _, pos => sliceChunks start length rest false chunk pos
  | chunk :: rest, false, lc, pos =>
    (if pos + wlen chunk ≤ start then []
     else if pos < start ∧ start ≤ pos + wlen chunk then
       [lc, cellSlice chunk (start - pos) (start - pos + length)]
     else if length + start < pos + wlen chunk then
       [lc, cellSlice chunk 0 (start + length - pos)]
     else [lc, chunk]) ++
    (if start + length ≤ pos + wlen chunk then []
     else sliceChunks start length rest true lc (pos + wlen chunk))

/-- `char_slice(ansi_text, start, length)`. -/
def char_slice (s : List Char) (start length : Nat) : List Char :=
  (sliceChunks start length (split_ansi_from_text s) false [] 0).flatten

/-! ### Attribute resolver (`parse_attr`, `parse_color`, `parse_ansi_code`,
`text_with_fg_bg_attr`) -/

namespace color

/-- Modelled from the spec: `curses.A_BOLD` (curses is an external library;
the spec only requires the five attributes to be distinct single bits).  The
values are the ncurses ones. -/
def bold : Nat := 2097152

/-- Modelled from the spec: `curses.A_UNDERLINE`. -/
def underline : Nat := 131072

/-- Modelled from the spec: `curses.A_BLINK`. -/
def blink : Nat := 524288

/-- Modelled from the spec: `curses.A_REVERSE`. -/
def reverse : Nat := 262144

/-- Modelled from the spec: `curses.A_INVIS`. -/
def invisible : Nat := 8388608

end color

/-- Python `not x` coerced back to an integer by `&`: `not 0` is `True` (1),
`not n` for nonzero `n` is `False` (0). -/
def pyNot (n : Nat) : Nat := if n = 0 then 1 else 0

/-- `parse_attr(code, fg, bg, attr)`: the if/elif chain over a single SGR
code.  Note the disable branches compute `attr & (not bit)`, Python boolean
negation, exactly as the source does. -/
def parse_attr (code : Nat) (fg bg : Int) (attr : Nat) : Int × Int × Nat :=
  if code = 0 then (-1, -1, 0)
  else if code = 1 then (fg, bg, attr ||| color.bold)
  else if code = 4 then (fg, bg, attr ||| color.underline)
  else if code = 5 then (fg, bg, attr ||| color.blink)
  else if code = 7 then (fg, bg, attr ||| color.reverse)
  else if code = 8 then (fg, bg, attr ||| color.invisible)
  else if code = 22 then (fg, bg, attr &&& pyNot color.bold)
  else if code = 24 then (fg, bg, attr &&& pyNot color.underline)
  else if code = 25 then (fg, bg, attr &&& pyNot color.blink)
  else if code = 27 then (fg, bg, attr &&& pyNot color.reverse)
  else if code = 28 then (fg, bg, attr &&& pyNot color.invisible)
  else if 30 ≤ code ∧ code ≤ 37 then ((code : Int) - 30, bg, attr)
  else if code = 39 then (-1, bg, attr)
  else if 40 ≤ code ∧ code ≤ 47 then (fg, (code : Int) - 40, attr)
  else if code = 49 then (fg, -1, attr)
  else if 90 ≤ code ∧ code ≤ 97 then ((code : Int) - 90 + 8, bg, attr)
  else if code = 99 then (-1, bg, attr)
  else if 100 ≤ code ∧ code ≤ 107 then (fg, (code : Int) - 100 + 8, attr)
  else if code = 109 then (fg, -1, attr)
  else (fg, bg, attr)

/-- `parse_indexed_color(code) = code` (identity). -/
def parse_indexed_color (code : Nat) : Int := (code : Int)

/-- `parse_rgb(code)`: unpacks `(r, g, b) = code` — a `ValueError` (`none`)
unless exactly three components — and delegates to `color.get_color_id`.
`get_color_id` itself lives on curses state (`curses.init_color`,
`curses.COLORS`, function-attribute memoization), the spec's external
color-registration collaborator, so it is taken as a parameter `gci`. -/
def parse_rgb (gci : Nat → Nat → Nat → Int) : List Nat → Option Int
  | [r, g, b] => some (gci r g b)
  | _ => none

/-- `parse_color(code)`: dispatch on `code[0]` — `none` is Python's
`IndexError` on an empty list.  The unknown-colour branch prints a warning
(side effect not modelled) and yields `-1`. -/
def parse_color (gci : Nat → Nat → Nat → Int) : List Nat → Option Int
  | [] => none
  | c :: rest =>
    if c = 5 then some (parse_indexed_color c)
    else if c = 2 then parse_rgb gci rest
    else some (-1)

/-- `parse_ansi_code(code, fg, bg, attr)`: dispatch on the first parameter. -/
def parse_ansi_code (gci : Nat → Nat → Nat → Int) (codes : List Nat)
    (fg bg : Int) (attr : Nat) : Option (Int × Int × Nat) :=
  match codes with
  | [] => none
  | c :: rest =>
    if c = 38 then (parse_color gci rest).map fun fg2 => (fg2, bg, attr)
    else if c = 48 then (parse_color gci rest).map fun bg2 => (fg, bg2, attr)
    else some (parse_attr c fg bg attr)

/-- Python `str.split(';')`: never empty, adjacent separators give `''`. -/
def splitSemi : List Char → List (List Char)
  | [] => [[]]
  | c :: cs =>
    if c = ';' then [] :: splitSemi cs
    else
      match splitSemi cs with
      | g :: gs => (c :: g) :: gs
      | [] => [[c]]

/-- Python `int(s)` on the parameter substrings cut from an SGR token: a value
for a nonempty digit string, `ValueError` (`none`) otherwise (notably on
`''`). -/
def pyInt (s : List Char) : Option Nat :=
  if s ≠ [] ∧ s.all isDigitCh then
    some (s.foldl (fun n c => 10 * n + (c.toNat - 48)) 0)
  else none

/-- `map(int, …)` over the split parameter list (Python 2 list semantics, as
assumed by the subscripting in `parse_ansi_code`). -/
def pyIntList : List (List Char) → Option (List Nat)
  | [] => some []
  | s :: rest =>
    match pyInt s, pyIntList rest with
    | some n, some ns => some (n :: ns)
    | _, _ => none

/-- Items yielded by the `text_with_fg_bg_attr` generator: raw text chunks and
resolved `(fg, bg, attr)` states. -/
inductive AnsiItem where
  | text : List Char → AnsiItem
  | state : Int → Int → Nat → AnsiItem
deriving DecidableEq

/-- One iteration of the `text_with_fg_bg_attr` loop on one chunk: returns the
new running state and the items yielded, `none` for an uncaught exception
(the `ValueError` of `int('')`, or unpacking/indexing errors downstream).
A chunk starting with `\x1b` whose last character is not `m`, or that does not
match `^.\[(.*).$` (second character `[`, length at least 3), is skipped. -/
def twfbaStep (gci : Nat → Nat → Nat → Int) (st : Int × Int × Nat)
    (chunk : List Char) : Option ((Int × Int × Nat) × List AnsiItem) :=
  match chunk with
  | [] => some (st, [AnsiItem.text []])
  | c :: cs =>
    if c = '\x1b' then
      if (c :: cs).getLast? ≠ some 'm' then some (st, [])
      else
        match cs with
        | c1 :: rest =>
          if c1 = '[' ∧ rest ≠ [] then
            match pyIntList (splitSemi rest.dropLast) with
            | some codes =>
              (parse_ansi_code gci codes st.1 st.2.1 st.2.2).map fun st2 =>
                (st2, [AnsiItem.state st2.1 st2.2.1 st2.2.2])
            | none => none
          else some (st, [])
        | [] => some (st, [])
    else some (st, [AnsiItem.text (c :: cs)])

/-- Folding `twfbaStep` over a chunk list, concatenating the yields. -/
def twfbaList (gci : Nat → Nat → Nat → Int) (st : Int × Int × Nat) :
    List (List Char) → Option (List AnsiItem)
  | [] => some []
  | ch :: rest =>
    match twfbaStep gci st ch with
    | none => none
    | some (st2, out) => (twfbaList gci st2 rest).map fun tl => out ++ tl

/-- `text_with_fg_bg_attr(ansi_text)`: the generator, as the list of all its
yields starting from the state `(-1, -1, 0)`; `none` if it raises. -/
def text_with_fg_bg_attr (gci : Nat → Nat → Nat → Int) (s : List Char) :
    Option (List AnsiItem) :=
  twfbaList gci (-1, -1, 0) (split_ansi_from_text s)

/-! ### Specification devices for the slice analysis -/

/-- The text pieces contributed by `sliceChunks`, without the re-emitted
`last_color` tokens (bookkeeping device for the visible-width analysis). -/
def slicePieces (start length : Nat) :
    List (List Char) → Bool → Nat → List (List Char)
  | [], _, _ => []
  | _ :: rest, true, pos => slicePieces start length rest false pos
  | chunk :: rest, false, pos =>
    (if pos + wlen chunk ≤ start then []
     else if pos < start ∧ start ≤ pos + wlen chunk then
       [cellSlice chunk (start - pos) (start - pos + length)]
     else if length + start < pos + wlen chunk then
       [cellSlice chunk 0 (start + length - pos)]
     else [chunk]) ++
    (if start + length ≤ pos + wlen chunk then []
     else slicePieces start length rest true (pos + wlen chunk))

/-- Total visible width of the text chunks, parity-tracked the way
`sliceChunks` walks them. -/
def sumTextW : List (List Char) → Bool → Nat
  | [], _ => 0
  | _ :: cs, true => sumTextW cs false
  | c :: cs, false => wlen c + sumTextW cs true

/-- Strings without wide glyphs (every character one display cell). -/
def Narrow (s : List Char) : Prop := ∀ c ∈ s, wideChar c = false

instance (s : List Char) : Decidable (Narrow s) := by
  unfold Narrow; infer_instance

/-- Empty or starting with the escape introducer. -/
def headEsc (l : List Char) : Prop := l = [] ∨ ∃ t, l = '\x1b' :: t

/-- The escape chunk most recently seen before the text chunk containing
visible position `start` — the spec's "most recently seen escape token". -/
def lastEscChunks (start : Nat) :
    List (List Char) → Bool → List Char → Nat → List Char
  | [], _, lc, _ => lc
  | c :: rest, true, _, pos => lastEscChunks start rest false c pos
  | c :: rest, false, lc, pos =>
    if pos + wlen c ≤ start then lastEscChunks start rest true lc (pos + wlen c)
    else lc

def lastEscAt (s : List Char) (start : Nat) : List Char :=
  lastEscChunks start (split_ansi_from_text s) false [] 0

section WidthLemmas

theorem cellList_append (a b : List Char) :
    cellList (a ++ b) = cellList a ++ cellList b := by
  simp [cellList]

theorem wlen_nil : wlen [] = 0 := rfl

theorem wlen_append (a b : List Char) : wlen (a ++ b) = wlen a + wlen b := by
  simp [wlen, cellList_append]

theorem cellList_flatten : ∀ s : List Char, (cellList s).flatten = s
  | [] => rfl
  | c :: cs => by
    have ih := cellList_flatten cs
    simp only [cellList, List.map_cons, List.flatten_cons] at ih ⊢
    by_cases hw : wideChar c
    · simp [cellsOf, hw, ih]
    · simp [cellsOf, hw, ih]

theorem cellSlice_sub (s : List Char) (a b : Nat) : cellSlice s a b <:+: s := by
  refine ⟨(((cellList s).take b).take a).flatten, ((cellList s).drop b).flatten, ?_⟩
  rw [cellSlice, ← List.flatten_append, ← List.flatten_append,
    List.take_append_drop, List.take_append_drop]
  exact cellList_flatten s

theorem narrow_cellList {s : List Char} (h : Narrow s) :
    cellList s = s.map fun c => [c] := by
  induction s with
  | nil => rfl
  | cons c cs ih =>
    have hc : wideChar c = false := h c (by simp)
    have ih2 := ih fun x hx => h x (by simp [hx])
    simp [cellList, cellsOf, hc] at ih2 ⊢
    exact ih2

theorem narrow_wlen {s : List Char} (h : Narrow s) : wlen s = s.length := by
  rw [wlen, narrow_cellList h, List.length_map]

theorem narrow_cellSlice {s : List Char} (h : Narrow s) (a b : Nat) :
    cellSlice s a b = (s.take b).drop a := by
  rw [cellSlice, narrow_cellList h, ← List.map_take, ← List.map_drop]
  induction ((s.take b).drop a) with
  | nil => rfl
  | cons c cs ih => simpa using ih

theorem narrow_of_sub {u s : List Char} (hsub : u <:+: s) (h : Narrow s) :
    Narrow u := fun c hc => h c (hsub.subset hc)

theorem narrow_take_drop {s : List Char} (h : Narrow s) (a b : Nat) :
    Narrow ((s.take b).drop a) :=
  fun c hc => h c (List.take_subset b s (List.drop_subset a _ hc))

end WidthLemmas

section AnsiSubLemmas

theorem ansiSub_nil : ansiSub [] = [] := rfl

theorem ansiSub_cons_match {c : Char} {cs m r : List Char}
    (h : matchAnsi (c :: cs) = some (m, r)) : ansiSub (c :: cs) = ansiSub r := by
  have hr := matchAnsi_rest_lt h
  simp only [List.length_cons] at hr
  show ansiSubF (c :: cs).length (c :: cs) = ansiSub r
  simp only [List.length_cons]
  rw [ansiSubF, h]
  exact ansiSubF_fuel cs.length r.length r (by omega) le_rfl

theorem ansiSub_cons_none {c : Char} {cs : List Char}
    (h : matchAnsi (c :: cs) = none) : ansiSub (c :: cs) = c :: ansiSub cs := by
  show ansiSubF (c :: cs).length (c :: cs) = c :: ansiSub cs
  simp only [List.length_cons]
  rw [ansiSubF, h]
  show c :: ansiSubF cs.length cs = c :: ansiSub cs
  rfl

theorem ansiSub_esc_append {e : List Char} (h : isEscSeq e) (X : List Char) :
    ansiSub (e ++ X) = ansiSub X := by
  obtain ⟨t, ht⟩ := isEscSeq_head h
  have hm : matchAnsi (e ++ X) = some (e, X) := isEscSeq_matchAnsi_append h X
  rw [ht] at hm ⊢
  exact ansiSub_cons_match hm

theorem char_len_esc {e : List Char} (h : isEscSeq e) : char_len e = 0 := by
  have : ansiSub e = [] := by
    have := ansiSub_esc_append h []
    simpa using this
  rw [char_len, this, wlen_nil]

/-- No match can begin inside substring-free text when what follows is empty
or starts with the introducer: the would-be match would have to lie entirely
inside the text (contradicting freedom) or contain a second introducer. -/
theorem textFree_no_match {p X : List Char} (hp : textFree p) (hX : headEsc X) :
    ∀ c cs, p = c :: cs → matchAnsi (p ++ X) = none := by
  intro c cs hpc
  cases hmt : matchAnsi (p ++ X) with
  | none => rfl
  | some q =>
    obtain ⟨m, r⟩ := q
    exfalso
    have hesc := matchAnsi_isEscSeq hmt
    have happ := matchAnsi_append hmt
    by_cases hlen : m.length ≤ p.length
    · obtain ⟨k, hk⟩ : ∃ k, k = m.length := ⟨m.length, rfl⟩
      have hmp : m = p.take k := by
        rw [hk]
        have h1 : m = (p ++ X).take m.length := by
          rw [happ, List.take_append_of_le_length le_rfl, List.take_length]
        rwa [List.take_append_of_le_length hlen] at h1
      refine hp m hesc ⟨[], p.drop k, ?_⟩
      rw [List.nil_append, hmp]
      exact List.take_append_drop k p
    · push_neg at hlen
      have hpm : p = m.take p.length := by
        have h1 : p = (m ++ r).take p.length := by
          rw [← happ, List.take_append_of_le_length le_rfl, List.take_length]
        rwa [List.take_append_of_le_length (le_of_lt hlen)] at h1
      set d0 : List Char := m.drop p.length with hd0
      have hdrop : m = p ++ d0 := by
        conv_lhs => rw [← List.take_append_drop p.length m]
        rw [← hpm]
      have hdX : X = d0 ++ r := by
        have h2 : p ++ X = p ++ (d0 ++ r) := by
          rw [happ]
          conv_lhs => rw [hdrop]
          rw [List.append_assoc]
        exact List.append_cancel_left h2
      have hdne : d0 ≠ [] := by
        intro hd
        have h3 : d0.length = 0 := by rw [hd]; rfl
        rw [hd0, List.length_drop] at h3
        omega
      obtain ⟨d, ds, hds⟩ := List.exists_cons_of_ne_nil hdne
      have hdesc : d = '\x1b' := by
        rcases hX with hXe | ⟨t, hXt⟩
        · exfalso
          rw [hXe, hds] at hdX
          simp at hdX
        · rw [hXt, hds, List.cons_append] at hdX
          exact (List.head_eq_of_cons_eq hdX).symm
      refine isEscSeq_tail_ne_esc hesc d ?_ hdesc
      rw [hdrop, hds, hpc]
      simp

theorem ansiSub_textFree_append {p X : List Char} (hp : textFree p)
    (hX : headEsc X) : ansiSub (p ++ X) = p ++ ansiSub X := by
  induction p with
  | nil => simp
  | cons c cs ih =>
    have hnone := textFree_no_match hp hX c cs rfl
    rw [List.cons_append] at hnone ⊢
    rw [ansiSub_cons_none hnone]
    have hfree : textFree cs := textFree_of_sub ⟨[c], [], by simp⟩ hp
    rw [ih hfree, List.cons_append]

end AnsiSubLemmas

/-! ### Analysis of `sliceChunks` -/

/-- Parity-tracked narrowness of the text chunks. -/
def TextNarrow : List (List Char) → Bool → Prop
  | [], _ => True
  | c :: cs, false => Narrow c ∧ TextNarrow cs true
  | _ :: cs, true => TextNarrow cs false

section SliceLemmas

theorem sliceChunks_headEsc (start length : Nat) :
    ∀ (cs : List (List Char)) (par : Bool) (lc : List Char) (pos : Nat),
      ChunksOK cs par → (par = false → ∃ t, lc = '\x1b' :: t) →
      headEsc (sliceChunks start length cs par lc pos).flatten
  | [], _, _, _, _, _ => Or.inl (by simp [sliceChunks])
  | e :: cs', true, lc, pos, hok, _ => by
    show headEsc (sliceChunks start length cs' false e pos).flatten
    obtain ⟨t, ht⟩ := isEscSeq_head hok.1
    exact sliceChunks_headEsc start length cs' false e pos hok.2 fun _ => ⟨t, ht⟩
  | t :: cs', false, lc, pos, hok, hlc => by
    obtain ⟨tl, hlct⟩ := hlc rfl
    rw [sliceChunks]
    by_cases h1 : pos + wlen t ≤ start
    · rw [if_pos h1]
      by_cases hbrk : start + length ≤ pos + wlen t
      · rw [if_pos hbrk]
        exact Or.inl (by simp)
      · rw [if_neg hbrk]
        simp only [List.nil_append]
        exact sliceChunks_headEsc start length cs' true lc (pos + wlen t) hok.2
          (by simp)
    · rw [if_neg h1]
      have hout : ∃ piece : List Char,
          (if pos < start ∧ start ≤ pos + wlen t then
            [lc, cellSlice t (start - pos) (start - pos + length)]
          else if length + start < pos + wlen t then
            [lc, cellSlice t 0 (start + length - pos)]
          else [lc, t]) = [lc, piece] := by
        by_cases h2 : pos < start ∧ start ≤ pos + wlen t
        · exact ⟨_, if_pos h2⟩
        · rw [if_neg h2]
          by_cases h3 : length + start < pos + wlen t
          · exact ⟨_, if_pos h3⟩
          · exact ⟨_, if_neg h3⟩
      obtain ⟨piece, hp⟩ := hout
      rw [hp]
      refine Or.inr ⟨tl ++ (piece ++ (if start + length ≤ pos + wlen t then
        ([] : List (List Char)) else
        sliceChunks start length cs' true lc (pos + wlen t)).flatten), ?_⟩
      rw [hlct]
      simp

/-- The `re.sub` scan applied to the output of the slice loop keeps exactly
the text pieces: every re-emitted `last_color` is a complete escape sequence
(removed), every text piece is substring-free and is followed by another
escape token or the end, so no new match can form across the joints. -/
theorem sliceChunks_ansiSub (start length : Nat) :
    ∀ (cs : List (List Char)) (par : Bool) (lc : List Char) (pos : Nat),
      ChunksOK cs par → (lc = [] ∨ isEscSeq lc) →
      ansiSub (sliceChunks start length cs par lc pos).flatten =
        (slicePieces start length cs par pos).flatten
  | [], _, _, _, _, _ => by simp [sliceChunks, slicePieces, ansiSub_nil]
  | e :: cs', true, lc, pos, hok, _ => by
    show ansiSub (sliceChunks start length cs' false e pos).flatten =
      (slicePieces start length cs' false pos).flatten
    exact sliceChunks_ansiSub start length cs' false e pos hok.2 (Or.inr hok.1)
  | t :: cs', false, lc, pos, hok, hlc => by
    rw [sliceChunks, slicePieces]
    have hrest_ok :
        headEsc (if start + length ≤ pos + wlen t then ([] : List (List Char))
          else sliceChunks start length cs' true lc (pos + wlen t)).flatten := by
      by_cases hbrk : start + length ≤ pos + wlen t
      · rw [if_pos hbrk]; exact Or.inl (by simp)
      · rw [if_neg hbrk]
        exact sliceChunks_headEsc start length cs' true lc (pos + wlen t) hok.2
          (by simp)
    have hrest_eq :
        ansiSub (if start + length ≤ pos + wlen t then ([] : List (List Char))
            else sliceChunks start length cs' true lc (pos + wlen t)).flatten =
          (if start + length ≤ pos + wlen t then ([] : List (List Char))
            else slicePieces start length cs' true (pos + wlen t)).flatten := by
      by_cases hbrk : start + length ≤ pos + wlen t
      · rw [if_pos hbrk, if_pos hbrk]
        simp [ansiSub_nil]
      · rw [if_neg hbrk, if_neg hbrk]
        exact sliceChunks_ansiSub start length cs' true lc (pos + wlen t)
          hok.2 hlc
    have hstep : ∀ piece : List Char, textFree piece →
        ansiSub (([lc, piece] : List (List Char)).flatten ++
            (if start + length ≤ pos + wlen t then ([] : List (List Char))
              else sliceChunks start length cs' true lc (pos + wlen t)).flatten) =
          ([piece] : List (List Char)).flatten ++
            (if start + length ≤ pos + wlen t then ([] : List (List Char))
              else slicePieces start length cs' true (pos + wlen t)).flatten := by
      intro piece hpiece
      have hbody : ansiSub (piece ++
          (if start + length ≤ pos + wlen t then ([] : List (List Char))
            else sliceChunks start length cs' true lc (pos + wlen t)).flatten) =
          piece ++
          (if start + length ≤ pos + wlen t then ([] : List (List Char))
            else slicePieces start length cs' true (pos + wlen t)).flatten := by
        rw [ansiSub_textFree_append hpiece hrest_ok, hrest_eq]
      rcases hlc with hlce | hlcesc
      · subst hlce
        simpa using hbody
      · rw [List.flatten_cons, List.flatten_cons, List.flatten_nil,
          List.append_nil, List.append_assoc, ansiSub_esc_append hlcesc]
        simpa using hbody
    by_cases h1 : pos + wlen t ≤ start
    · rw [if_pos h1, if_pos h1]
      simp only [List.nil_append]
      exact hrest_eq
    · rw [if_neg h1, if_neg h1]
      by_cases h2 : pos < start ∧ start ≤ pos + wlen t
      · rw [if_pos h2, if_pos h2, List.flatten_append, List.flatten_append]
        exact hstep _ (textFree_of_sub (cellSlice_sub t _ _) hok.1)
      · rw [if_neg h2, if_neg h2]
        by_cases h3 : length + start < pos + wlen t
        · rw [if_pos h3, if_pos h3, List.flatten_append, List.flatten_append]
          exact hstep _ (textFree_of_sub (cellSlice_sub t _ _) hok.1)
        · rw [if_neg h3, if_neg h3, List.flatten_append, List.flatten_append]
          exact hstep _ hok.1

/-- Visible width delivered by the text pieces (narrow case): the slice loop
emits exactly the cells of the visible interval `[start, start+length)` that
the walked chunks cover. -/
theorem slicePieces_length (start length : Nat) :
    ∀ (cs : List (List Char)) (par : Bool) (pos : Nat),
      TextNarrow cs par → pos ≤ start + length →
      ((slicePieces start length cs par pos).flatten).length =
        min (start + length) (pos + sumTextW cs par) - max start pos
  | [], par, pos, _, hpos => by
    have h0 : sumTextW ([] : List (List Char)) par = 0 := rfl
    simp only [slicePieces, List.flatten_nil, List.length_nil, h0]
    omega
  | c :: cs', true, pos, hn, hpos => by
    show ((slicePieces start length cs' false pos).flatten).length =
      min (start + length) (pos + sumTextW cs' false) - max start pos
    exact slicePieces_length start length cs' false pos hn hpos
  | t :: cs', false, pos, hn, hpos => by
    obtain ⟨hnt, hn'⟩ := hn
    have hw : wlen t = t.length := narrow_wlen hnt
    have hsum : sumTextW (t :: cs') false = wlen t + sumTextW cs' true := rfl
    rw [slicePieces, hsum]
    by_cases h1 : pos + wlen t ≤ start
    · rw [if_pos h1]
      by_cases hbrk : start + length ≤ pos + wlen t
      · rw [if_pos hbrk]
        simp only [List.append_nil, List.flatten_nil, List.length_nil]
        omega
      · rw [if_neg hbrk]
        simp only [List.nil_append]
        rw [slicePieces_length start length cs' true (pos + wlen t) hn' (by omega)]
        omega
    · rw [if_neg h1]
      by_cases h2 : pos < start ∧ start ≤ pos + wlen t
      · rw [if_pos h2]
        have hplen : (cellSlice t (start - pos) (start - pos + length)).length =
            min (start - pos + length) t.length - (start - pos) := by
          rw [narrow_cellSlice hnt, List.length_drop, List.length_take]
        by_cases hbrk : start + length ≤ pos + wlen t
        · rw [if_pos hbrk]
          simp only [List.append_nil, List.flatten_cons, List.flatten_nil,
            List.length_append, List.length_nil, hplen]
          omega
        · rw [if_neg hbrk]
          rw [List.flatten_append]
          simp only [List.flatten_cons, List.flatten_nil, List.append_nil,
            List.length_append, hplen]
          rw [slicePieces_length start length cs' true (pos + wlen t) hn' (by omega)]
          omega
      · rw [if_neg h2]
        by_cases h3 : length + start < pos + wlen t
        · rw [if_pos h3]
          have hbrk : start + length ≤ pos + wlen t := by omega
          rw [if_pos hbrk]
          have hplen : (cellSlice t 0 (start + length - pos)).length =
              min (start + length - pos) t.length := by
            rw [narrow_cellSlice hnt, List.length_drop, List.length_take]
            omega
          simp only [List.append_nil, List.flatten_cons, List.flatten_nil,
            List.append_nil, List.length_append, List.length_nil, hplen]
          omega
        · rw [if_neg h3]
          by_cases hbrk : start + length ≤ pos + wlen t
          · rw [if_pos hbrk]
            simp only [List.append_nil, List.flatten_cons, List.flatten_nil,
              List.append_nil, List.length_append, List.length_nil]
            omega
          · rw [if_neg hbrk]
            rw [List.flatten_append]
            simp only [List.flatten_cons, List.flatten_nil, List.append_nil,
              List.length_append]
            rw [slicePieces_length start length cs' true (pos + wlen t) hn' (by omega)]
            omega

/-- Once the whole remaining visible text ends at or before `start`, the loop
emits nothing. -/
theorem sliceChunks_beyond (start length : Nat) :
    ∀ (cs : List (List Char)) (par : Bool) (lc : List Char) (pos : Nat),
      pos + sumTextW cs par ≤ start →
      sliceChunks start length cs par lc pos = []
  | [], _, _, _, _ => rfl
  | c :: cs', true, lc, pos, h =>
    sliceChunks_beyond start length cs' false c pos h
  | t :: cs', false, lc, pos, h => by
    rw [sliceChunks]
    have hsum : sumTextW (t :: cs') false = wlen t + sumTextW cs' true := rfl
    rw [hsum] at h
    have h1 : pos + wlen t ≤ start := by omega
    rw [if_pos h1]
    by_cases hbrk : start + length ≤ pos + wlen t
    · rw [if_pos hbrk]
      rfl
    · rw [if_neg hbrk]
      rw [sliceChunks_beyond start length cs' true lc (pos + wlen t) (by omega)]
      rfl

/-- With `length = 0` the loop emits at most one re-emitted escape token and
no visible text. -/
theorem sliceChunks_zero (start : Nat) :
    ∀ (cs : List (List Char)) (par : Bool) (lc : List Char) (pos : Nat),
      ChunksOK cs par → (lc = [] ∨ isEscSeq lc) →
      ∃ l, (l = [] ∨ isEscSeq l) ∧ (sliceChunks start 0 cs par lc pos).flatten = l
  | [], _, lc, _, _, _ => ⟨[], Or.inl rfl, by simp [sliceChunks]⟩
  | e :: cs', true, lc, pos, hok, _ =>
    sliceChunks_zero start cs' false e pos hok.2 (Or.inr hok.1)
  | t :: cs', false, lc, pos, hok, hlc => by
    rw [sliceChunks]
    by_cases h1 : pos + wlen t ≤ start
    · rw [if_pos h1]
      by_cases hbrk : start + 0 ≤ pos + wlen t
      · rw [if_pos hbrk]
        exact ⟨[], Or.inl rfl, by simp⟩
      · rw [if_neg hbrk]
        simp only [List.nil_append]
        exact sliceChunks_zero start cs' true lc (pos + wlen t) hok.2 hlc
    · rw [if_neg h1]
      have hbrk : start + 0 ≤ pos + wlen t := by omega
      rw [if_pos hbrk]
      by_cases h2 : pos < start ∧ start ≤ pos + wlen t
      · rw [if_pos h2]
        refine ⟨lc, hlc, ?_⟩
        have hcells : cellSlice t (start - pos) (start - pos + 0) = [] := by
          rw [cellSlice]
          rw [List.drop_eq_nil_of_le (by rw [List.length_take]; omega)]
          rfl
        rw [hcells]
        simp
      · rw [if_neg h2]
        by_cases h3 : 0 + start < pos + wlen t
        · rw [if_pos h3]
          refine ⟨lc, hlc, ?_⟩
          have hz : start + 0 - pos = 0 := by omega
          have hcells : cellSlice t 0 (start + 0 - pos) = [] := by
            rw [hz, cellSlice]
            rfl
          rw [hcells]
          simp
        · exact absurd h1 (by omega)

/-- With a nonempty request starting inside the remaining text, the output
starts with the escape chunk most recently seen before the text chunk
containing `start` — even if that chunk was walked long before. -/
theorem sliceChunks_lastEsc (start length : Nat) (hl : 0 < length) :
    ∀ (cs : List (List Char)) (par : Bool) (lc : List Char) (pos : Nat),
      pos ≤ start → start < pos + sumTextW cs par →
      ∃ tail, (sliceChunks start length cs par lc pos).flatten =
        lastEscChunks start cs par lc pos ++ tail
  | [], par, lc, pos, hp, hs => absurd hs (by
      have h0 : sumTextW ([] : List (List Char)) par = 0 := by cases par <;> rfl
      omega)
  | e :: cs', true, lc, pos, hp, hs =>
    sliceChunks_lastEsc start length hl cs' false e pos hp hs
  | t :: cs', false, lc, pos, hp, hs => by
    have hsum : sumTextW (t :: cs') false = wlen t + sumTextW cs' true := rfl
    rw [hsum] at hs
    rw [sliceChunks, lastEscChunks]
    by_cases h1 : pos + wlen t ≤ start
    · rw [if_pos h1, if_pos h1]
      have hnobrk : ¬ (start + length ≤ pos + wlen t) := by omega
      rw [if_neg hnobrk]
      simp only [List.nil_append]
      exact sliceChunks_lastEsc start length hl cs' true lc (pos + wlen t) h1
        (by omega)
    · rw [if_neg h1, if_neg h1]
      have hout : ∃ piece : List Char,
          (if pos < start ∧ start ≤ pos + wlen t then
            [lc, cellSlice t (start - pos) (start - pos + length)]
          else if length + start < pos + wlen t then
            [lc, cellSlice t 0 (start + length - pos)]
          else [lc, t]) = [lc, piece] := by
        by_cases h2 : pos < start ∧ start ≤ pos + wlen t
        · exact ⟨_, if_pos h2⟩
        · rw [if_neg h2]
          by_cases h3 : length + start < pos + wlen t
          · exact ⟨_, if_pos h3⟩
          · exact ⟨_, if_neg h3⟩
      obtain ⟨piece, hpe⟩ := hout
      rw [hpe]
      exact ⟨piece ++ (if start + length ≤ pos + wlen t then
        ([] : List (List Char)) else
        sliceChunks start length cs' true lc (pos + wlen t)).flatten, by simp⟩

theorem sumTextW_parity : ∀ cs : List (List Char),
    sumTextW cs false = wlen (parityChunks true cs).flatten ∧
    sumTextW cs true = wlen (parityChunks false cs).flatten
  | [] => ⟨rfl, rfl⟩
  | c :: cs => by
    have ih := sumTextW_parity cs
    constructor
    · show wlen c + sumTextW cs true = wlen (parityChunks true (c :: cs)).flatten
      rw [ih.2]
      show _ = wlen (c :: parityChunks false cs).flatten
      rw [List.flatten_cons, wlen_append]
    · show sumTextW cs false = wlen (parityChunks false (c :: cs)).flatten
      rw [ih.1]
      rfl

/-- `char_len` is the total width of the text chunks of the split. -/
theorem char_len_eq_sumTextW (s : List Char) :
    char_len s = sumTextW (split_ansi_from_text s) false := by
  rw [char_len, ansiSub, ansiSubF_textChunks s.length s le_rfl,
    ← (sumTextW_parity (splitAnsiF s.length s)).1]
  rfl

theorem narrow_chunks {s : List Char} (h : Narrow s) :
    ∀ ch ∈ split_ansi_from_text s, Narrow ch := by
  intro ch hch c hc
  apply h
  have hmem : c ∈ (split_ansi_from_text s).flatten :=
    List.mem_flatten.mpr ⟨ch, hch, hc⟩
  rwa [split_ansi_from_text, splitAnsiF_join s.length s le_rfl] at hmem

theorem textNarrow_of_all : ∀ (cs : List (List Char)) (par : Bool),
    (∀ ch ∈ cs, Narrow ch) → TextNarrow cs par
  | [], false, _ => True.intro
  | [], true, _ => True.intro
  | c :: cs, false, h =>
    ⟨h c (by simp), textNarrow_of_all cs true fun ch hch => h ch (by simp [hch])⟩
  | _ :: cs, true, h =>
    textNarrow_of_all cs false fun ch hch => h ch (by simp [hch])

theorem narrow_slicePieces (start length : Nat) :
    ∀ (cs : List (List Char)) (par : Bool) (pos : Nat),
      (∀ ch ∈ cs, Narrow ch) →
      Narrow (slicePieces start length cs par pos).flatten
  | [], _, _, _ => by intro c hc; simp [slicePieces] at hc
  | c :: cs', true, pos, h =>
    narrow_slicePieces start length cs' false pos fun ch hch => h ch (by simp [hch])
  | t :: cs', false, pos, h => by
    have hnt : Narrow t := h t (by simp)
    rw [slicePieces]
    intro c hc
    rw [List.flatten_append] at hc
    rcases List.mem_append.mp hc with hc | hc
    · by_cases h1 : pos + wlen t ≤ start
      · rw [if_pos h1] at hc; simp at hc
      · rw [if_neg h1] at hc
        by_cases h2 : pos < start ∧ start ≤ pos + wlen t
        · rw [if_pos h2] at hc
          simp only [List.flatten_cons, List.flatten_nil, List.append_nil] at hc
          exact narrow_of_sub (cellSlice_sub t _ _) hnt c hc
        · rw [if_neg h2] at hc
          by_cases h3 : length + start < pos + wlen t
          · rw [if_pos h3] at hc
            simp only [List.flatten_cons, List.flatten_nil, List.append_nil] at hc
            exact narrow_of_sub (cellSlice_sub t _ _) hnt c hc
          · rw [if_neg h3] at hc
            simp only [List.flatten_cons, List.flatten_nil, List.append_nil] at hc
            exact hnt c hc
    · by_cases hbrk : start + length ≤ pos + wlen t
      · rw [if_pos hbrk] at hc; simp at hc
      · rw [if_neg hbrk] at hc
        exact narrow_slicePieces start length cs' true (pos + wlen t)
          (fun ch hch => h ch (by simp [hch])) c hc

end SliceLemmas

section Alternation

theorem split_alternation : ∀ (cs : List (List Char)), ChunksOK cs false →
    ∀ (i : Nat) (h : i < cs.length),
      (i % 2 = 1 → isEscSeq (cs.get ⟨i, h⟩)) ∧
      (i % 2 = 0 → textFree (cs.get ⟨i, h⟩))
  | [], _, i, h => absurd h (by simp)
  | [t], hok, i, h => by
    have hi : i = 0 := by simpa using h
    subst hi
    exact ⟨fun hp => by simp at hp, fun _ => hok.1⟩
  | t :: e :: cs, hok, i, h => by
    match i with
    | 0 => exact ⟨fun hp => by simp at hp, fun _ => hok.1⟩
    | 1 => exact ⟨fun _ => hok.2.1, fun hp => by simp at hp⟩
    | i + 2 =>
      have h2 : i < cs.length := by simpa using h
      have ih := split_alternation cs hok.2.2 i h2
      constructor
      · intro hp
        have hp2 : i % 2 = 1 := by omega
        simpa using ih.1 hp2
      · intro hp
        have hp2 : i % 2 = 0 := by omega
        simpa using ih.2 hp2

end Alternation

/-! ### Claims -/

/-- A truecolor registration collaborator that returns 42 for (255, 0, 0). -/
def gci42 : Nat → Nat → Nat → Int := fun r g b =>
  if r = 255 ∧ g = 0 ∧ b = 0 then 42 else -1

/-- C1: Tokenizer round-trip — for every string `s`, concatenating in order
all chunks returned by `split_ansi_from_text s` (text chunks and escape
chunks alike) reproduces `s` exactly. -/
theorem C1_tokenizer_roundtrip (s : List Char) :
    (split_ansi_from_text s).flatten = s :=
  splitAnsiF_join s.length s le_rfl

/-- C2 (code refutation): applying enable code 1 then disable code 22 via
`parse_attr` to the prior mask `underline` does not restore the prior mask —
`attr &= not color.bold` is a Python boolean negation, which zeroes the whole
bitmask, so the result is 0 while the prior mask `underline` is nonzero. -/
theorem C2_disable_clears_everything :
    (parse_attr 22 (-1) (-1)
        ((parse_attr 1 (-1) (-1) color.underline).2.2)).2.2 = 0 ∧
      color.underline ≠ 0 := by
  constructor
  · rfl
  · decide

/-- C3 (code refutation): resolving `"\x1b[38;5;196m"` sets `fg` to 5, not
196: `parse_color` passes `code[0]` (the literal 5) to `parse_indexed_color`
instead of the following parameter. -/
theorem C3_indexed_color_is_five (gci : Nat → Nat → Nat → Int) :
    text_with_fg_bg_attr gci ("\x1b[38;5;196m".toList) =
        some [AnsiItem.text [], AnsiItem.state 5 (-1) 0, AnsiItem.text []] ∧
      (5 : Int) ≠ 196 := by
  constructor
  · rfl
  · decide

/-- C4 (counterexample): with the wide glyph `一` (2 display cells) and
`a = 1, b = 2` the claim's hypotheses hold, but the slice drops the glyph
whose cell range straddles the boundary: the result has visible length
0 ≠ b - a. -/
theorem C4_counterexample :
    (1 : Nat) ≤ 2 ∧ 2 ≤ char_len ['一'] ∧
      char_len (char_slice ['一'] 1 (2 - 1)) ≠ 2 - 1 := by decide

/-- C4 (amended): slice composability — for strings whose characters are all
narrow (one display cell), `char_len (char_slice s a (b - a)) = b - a`
whenever `a ≤ b ≤ char_len s`. -/
theorem C4_slice_composability (s : List Char) (a b : Nat) (hn : Narrow s)
    (hab : a ≤ b) (hb : b ≤ char_len s) :
    char_len (char_slice s a (b - a)) = b - a := by
  have hok : ChunksOK (split_ansi_from_text s) false :=
    splitAnsiF_ok s.length s le_rfl
  have hchunks : ∀ ch ∈ split_ansi_from_text s, Narrow ch := narrow_chunks hn
  have hA := sliceChunks_ansiSub a (b - a) (split_ansi_from_text s) false [] 0
    hok (Or.inl rfl)
  have hnarrowP : Narrow (slicePieces a (b - a) (split_ansi_from_text s)
      false 0).flatten :=
    narrow_slicePieces a (b - a) _ false 0 hchunks
  have hB := slicePieces_length a (b - a) (split_ansi_from_text s) false 0
    (textNarrow_of_all _ false hchunks) (Nat.zero_le _)
  have hsum := char_len_eq_sumTextW s
  have hmain : char_len (char_slice s a (b - a)) =
      min (a + (b - a)) (0 + sumTextW (split_ansi_from_text s) false) -
        max a 0 := by
    rw [char_slice, char_len, hA, narrow_wlen hnarrowP, hB]
  rw [hmain]
  omega

theorem C4_witness :
    Narrow ("ab\x1b[31mcd".toList) ∧ (1 : Nat) ≤ 3 ∧
      3 ≤ char_len ("ab\x1b[31mcd".toList) ∧
      char_len (char_slice ("ab\x1b[31mcd".toList) 1 (3 - 1)) = 3 - 1 :=
  ⟨by decide, by decide, by decide,
    C4_slice_composability ("ab\x1b[31mcd".toList) 1 3 (by decide) (by decide)
      (by decide)⟩

/-- C5: self-containment — whenever the slice is nonempty-by-construction
(`0 < length` and `start` inside the visible text), its output starts with the
escape chunk most recently seen before the text chunk containing `start`,
even if that escape appeared before the slice's start; and the concrete
Example 3. -/
theorem C5_last_color_emitted :
    (∀ (s : List Char) (start length : Nat), 0 < length → start < char_len s →
        ∃ tail, char_slice s start length = lastEscAt s start ++ tail) ∧
      char_slice ("abcde\x1b[30mfoo\x1b[31mbar\x1b[0mnormal".toList) 5 6 =
        ("\x1b[30mfoo\x1b[31mbar".toList) := by
  constructor
  · intro s start length hl hs
    have hs2 : start < 0 + sumTextW (split_ansi_from_text s) false := by
      rw [char_len_eq_sumTextW] at hs
      omega
    exact sliceChunks_lastEsc start length hl (split_ansi_from_text s) false
      [] 0 (Nat.zero_le _) hs2
  · decide

theorem C5_witness :
    ∃ tail, char_slice ("abcde\x1b[30mfoo\x1b[31mbar\x1b[0mnormal".toList) 5 6 =
      lastEscAt ("abcde\x1b[30mfoo\x1b[31mbar\x1b[0mnormal".toList) 5 ++ tail :=
  C5_last_color_emitted.1 ("abcde\x1b[30mfoo\x1b[31mbar\x1b[0mnormal".toList)
    5 6 (by decide) (by decide)

/-- C6 (code behaviour): resolving an SGR token whose first parameter is 0
resets the state to `(-1, -1, 0)` regardless of the prior state and of any
further parameters, but a token with an empty parameter list is not resolved:
`int('')` raises `ValueError` (modelled as `none`). -/
theorem C6_reset (gci : Nat → Nat → Nat → Int) (rest : List Nat)
    (fg bg : Int) (attr : Nat) :
    parse_ansi_code gci (0 :: rest) fg bg attr = some (-1, -1, 0) ∧
      twfbaStep gci (fg, bg, attr) ("\x1b[m".toList) = none := by
  constructor
  · rfl
  · rfl

/-- C7 (counterexample): `char_slice` with `length = 0` is not always empty —
when `start` falls strictly inside a text chunk preceded by an escape token,
the re-emitted `last_color` makes the result that escape token. -/
theorem C7_counterexample :
    char_slice ("\x1b[31mab".toList) 1 0 = ("\x1b[31m".toList) ∧
      ("\x1b[31m".toList : List Char) ≠ [] := by
  constructor
  · decide
  · decide

/-- C7 (amended): `start` at or beyond the visible length gives the empty
string; `length = 0` gives no visible text — the result is the empty string
or a single re-emitted escape token, so its `char_len` is 0. -/
theorem C7_empty_policy (s : List Char) (start length : Nat) :
    (char_len s ≤ start → char_slice s start length = []) ∧
      char_len (char_slice s start 0) = 0 := by
  constructor
  · intro hbeyond
    have hb2 : 0 + sumTextW (split_ansi_from_text s) false ≤ start := by
      rw [char_len_eq_sumTextW] at hbeyond
      omega
    rw [char_slice, sliceChunks_beyond start length _ false [] 0 hb2]
    rfl
  · obtain ⟨l, hl, hflat⟩ := sliceChunks_zero start (split_ansi_from_text s)
      false [] 0 (splitAnsiF_ok s.length s le_rfl) (Or.inl rfl)
    rw [char_slice, hflat]
    rcases hl with hle | hesc
    · rw [hle]
      rfl
    · exact char_len_esc hesc

theorem C7_witness :
    (char_len ("ab".toList) ≤ 5 ∧ char_slice ("ab".toList) 5 7 = []) ∧
      char_len (char_slice ("\x1b[31mab".toList) 1 0) = 0 :=
  ⟨⟨by decide, (C7_empty_policy ("ab".toList) 5 7).1 (by decide)⟩,
    (C7_empty_policy ("\x1b[31mab".toList) 1 0).2⟩

/-- C8: an SGR token `38;2;R;G;B` delegates to the color-registration
collaborator with `(R, G, B)` and assigns its return value to `fg`; with a
collaborator returning 42 for `(255, 0, 0)`, parsing `"\x1b[38;2;255;0;0m"`
yields `fg = 42`. -/
theorem C8_truecolor (gci : Nat → Nat → Nat → Int) (r g b : Nat)
    (fg bg : Int) (attr : Nat) :
    parse_ansi_code gci [38, 2, r, g, b] fg bg attr =
        some (gci r g b, bg, attr) ∧
      text_with_fg_bg_attr gci42 ("\x1b[38;2;255;0;0m".toList) =
        some [AnsiItem.text [], AnsiItem.state 42 (-1) 0, AnsiItem.text []] := by
  constructor
  · rfl
  · rfl

/-- C9 (amended): an escape token not terminated by `m` leaves the running
state unchanged and contributes zero visible width, but it is omitted from
`text_with_fg_bg_attr`'s output, not passed through. -/
theorem C9_non_sgr_tokens :
    (∀ (gci : Nat → Nat → Nat → Int) (st : Int × Int × Nat) (chunk : List Char),
        chunk.head? = some '\x1b' → chunk.getLast? ≠ some 'm' →
        twfbaStep gci st chunk = some (st, [])) ∧
      ∀ e : List Char, isEscSeq e → char_len e = 0 := by
  constructor
  · intro gci st chunk hhead hlast
    cases chunk with
    | nil => simp at hhead
    | cons c cs =>
      have hc : c = '\x1b' := by simpa using hhead
      subst hc
      simp only [twfbaStep]
      simp
      intro h
      exact absurd h hlast
  · exact fun e he => char_len_esc he

theorem C9_witness :
    twfbaStep (fun _ _ _ => (-1 : Int)) (-1, -1, 0) ("\x1b[2J".toList) =
        some ((-1, -1, 0), []) ∧
      char_len ("\x1b[2J".toList) = 0 :=
  ⟨C9_non_sgr_tokens.1 (fun _ _ _ => (-1 : Int)) (-1, -1, 0)
      ("\x1b[2J".toList) (by decide) (by decide),
    C9_non_sgr_tokens.2 ("\x1b[2J".toList) (by decide)⟩

/-- C9 (counterexample): the non-SGR token `\x1b[2J` is dropped by
`text_with_fg_bg_attr` — no item of the output of the surrounding string
carries it, so it is not passed through unchanged to the output. -/
theorem C9_counterexample :
    text_with_fg_bg_attr (fun _ _ _ => (-1 : Int)) ("\x1b[2Ja".toList) =
        some [AnsiItem.text [], AnsiItem.text ['a']] ∧
      AnsiItem.text ("\x1b[2J".toList) ∉
        [AnsiItem.text ([] : List Char), AnsiItem.text ['a']] := by
  constructor
  · rfl
  · decide

/-- C10: the split has odd length, every odd-index chunk is one complete
escape sequence of the pattern, and every even-index chunk is text containing
no substring matching the pattern — so classifying chunks by index parity, as
`char_slice` does, is correct for every input. -/
theorem C10_alternation (s : List Char) :
    (split_ansi_from_text s).length % 2 = 1 ∧
      ∀ (i : Nat) (h : i < (split_ansi_from_text s).length),
        (i % 2 = 1 → isEscSeq ((split_ansi_from_text s).get ⟨i, h⟩)) ∧
        (i % 2 = 0 → textFree ((split_ansi_from_text s).get ⟨i, h⟩)) :=
  ⟨splitAnsiF_length_odd s.length s,
    split_alternation (split_ansi_from_text s) (splitAnsiF_ok s.length s le_rfl)⟩

theorem C10_witness :
    (split_ansi_from_text ("a\x1b[31mb".toList)).length % 2 = 1 ∧
      isEscSeq ((split_ansi_from_text ("a\x1b[31mb".toList)).get ⟨1, by decide⟩) :=
  ⟨(C10_alternation ("a\x1b[31mb".toList)).1,
    ((C10_alternation ("a\x1b[31mb".toList)).2 1 (by decide)).1 (by decide)⟩

end Ranger
